import Mathlib

/-!
Verification development for the Sieve repository (src/utils.ts,
src/components/GameWorld.tsx, src/unnamed/part_000, src/unnamed/part_001).

Positions are modelled with exact rational coordinates.  The source compares
Euclidean distances (`posA.distanceTo(posB) < threshold`); since
`sqrt d < t ↔ 0 < t ∧ d < t*t` for `d ≥ 0`, the comparison is embedded as the
equivalent squared-distance test `nearB`, proved equivalent to the real
square-root comparison in `nearB_iff_dist_lt`.  The weld radius genuinely
flows through `Math.sqrt`, so it is modelled in `ℝ`.

File layout: all definitions first (source embeddings, then the spec-side
definitions used to state the claims), then the lemmas and claim theorems.
-/

/-- Coordinate triple [x, y, z], as used throughout the source. -/
structure Vec3 where
  x : ℚ
  y : ℚ
  z : ℚ
deriving DecidableEq, Repr

/-- Squared Euclidean distance between two positions. -/
def distSq (a b : Vec3) : ℚ :=
  (a.x - b.x) * (a.x - b.x) + (a.y - b.y) * (a.y - b.y) + (a.z - b.z) * (a.z - b.z)

/-- Embeds `posA.distanceTo(posB) < threshold` (THREE.Vector3.distanceTo is the
Euclidean distance): for nonnegative radicands, `sqrt d < t` holds exactly when
`0 < t` and `d < t * t`. -/
def nearB (a b : Vec3) (t : ℚ) : Bool :=
  decide (0 < t) && decide (distSq a b < t * t)

/-- Real-valued Euclidean distance, the exact meaning of
`THREE.Vector3.distanceTo`. -/
noncomputable def euclidDist (a b : Vec3) : ℝ :=
  Real.sqrt ((distSq a b : ℝ))

/-! ## Level config generator (src/utils.ts `generateLevelConfig`) -/

/-- Result record of `generateLevelConfig`. -/
structure LevelConfig where
  levelNumber : ℕ
  stoneCount : ℕ
  beanCount : ℕ
  beanTypes : ℕ
deriving DecidableEq, Repr

/-- Embedding of `generateLevelConfig` (identical in src/utils.ts and
src/unnamed/part_001).  `Math.floor((level - 1) / 3)` on a nonnegative
integer argument is truncated natural division. -/
def generateLevelConfig (level : ℕ) : LevelConfig :=
  { levelNumber := level
    stoneCount := min (3 + (level - 1) / 3) 12
    beanCount := min (15 + (level - 1) * 4) 100
    beanTypes := if 16 ≤ level then 2 else 1 }

/-! ## Proximity graph construction

The double loop `for i; for j = i+1` enumerates exactly the ordered index
pairs `i < j`; `pairs` lists the corresponding id pairs in source order. -/

/-- All pairs (ids[i], ids[j]) with i < j, in the order the double loop
visits them. -/
def pairs : List String → List (String × String)
  | [] => []
  | x :: xs => (xs.map fun y => (x, y)) ++ pairs xs

/-- `adj[a].push(b)`: functional update of the adjacency map. -/
def pushNbr (adj : String → List String) (a b : String) : String → List String :=
  fun k => if k = a then adj a ++ [b] else adj k

/-- One accepted pair: `adj[idA].push(idB); adj[idB].push(idA)`. -/
def addEdge (adj : String → List String) (a b : String) : String → List String :=
  pushNbr (pushNbr adj a b) b a

/-- Loop body of the graph-building loop in `checkConnectivity`
(src/utils.ts): positions are present for every id there. -/
def stepAdj (pos : String → Vec3) (t : ℚ) (adj : String → List String)
    (p : String × String) : String → List String :=
  if nearB (pos p.1) (pos p.2) t then addEdge adj p.1 p.2 else adj

/-- Adjacency built by `checkConnectivity`'s double loop. -/
def buildAdj (pos : String → Vec3) (t : ℚ) (ids : List String) :
    String → List String :=
  (pairs ids).foldl (stepAdj pos t) (fun _ => [])

/-- Loop body of the graph-building loop in `getConnectivityData`
(src/unnamed/part_001): `if (!positions[idA] || !positions[idB]) continue;`
skips pairs with a missing position, otherwise records the adjacency and the
connection pair. -/
def stepConn (pos : String → Option Vec3) (t : ℚ)
    (st : (String → List String) × List (String × String))
    (p : String × String) : (String → List String) × List (String × String) :=
  match pos p.1, pos p.2 with
  | some pa, some pb =>
      if nearB pa pb t then (addEdge st.1 p.1 p.2, st.2 ++ [p]) else st
  | _, _ => st

/-- Adjacency and connection list built by `getConnectivityData`'s loop. -/
def buildConn (pos : String → Option Vec3) (t : ℚ) (ids : List String) :
    (String → List String) × List (String × String) :=
  (pairs ids).foldl (stepConn pos t) ((fun _ => []), [])

/-! ## Worklist traversal

`checkConnectivity` runs a DFS (`stack.pop()` takes the last element, pushes
append); `getConnectivityData` runs a BFS (`queue.shift()` takes the first,
pushes append).  Both are instances of `searchLoop`, whose worklist is the JS
array read back-to-front for the stack (`push` = cons, head = top) and
front-to-back for the queue (`push` = append, head = front).  The `while`
loop is modelled with fuel; `ids.length + 1` steps are enough because every
node enters the worklist at most once (`searchLoop_runs_out` below). -/

/-- Inner `for (const neighbor of ...)` loop: mark unvisited neighbors
visited and push them onto the worklist. -/
def visitStep (push : List String → String → List String)
    (vw : List String × List String) (ns : List String) :
    List String × List String :=
  ns.foldl
    (fun vw n => if n ∈ vw.1 then vw else (vw.1 ++ [n], push vw.2 n)) vw

/-- The `while (worklist.length > 0)` loop, with fuel. -/
def searchLoop (adj : String → List String)
    (push : List String → String → List String) :
    ℕ → List String → List String → List String
  | 0, visited, _ => visited
  | _ + 1, visited, [] => visited
  | fuel + 1, visited, c :: rest =>
      let vw := visitStep push (visited, rest) (adj c)
      searchLoop adj push fuel vw.1 vw.2

/-- Stack discipline of `checkConnectivity` (JS array reversed: cons = push,
head = top = `pop()`). -/
def stackPush (w : List String) (n : String) : List String := n :: w

/-- Queue discipline of `getConnectivityData` (head = front = `shift()`,
append = push). -/
def queuePush (w : List String) (n : String) : List String := w ++ [n]

/-- Embedding of `checkConnectivity` (src/utils.ts lines 23–67).  The claim
contexts guarantee every listed id has a position, so the position map is
total here. -/
def checkConnectivity (pos : String → Vec3) (ids : List String) (t : ℚ) : Bool :=
  if ids.length ≤ 1 then true
  else
    let adj := buildAdj pos t ids
    let start := ids.headI
    let visited := searchLoop adj stackPush (ids.length + 1) [start] [start]
    decide (visited.length = ids.length)

/-- Result record of `getConnectivityData`. -/
structure ConnectivityData where
  isFullyConnected : Bool
  connections : List (String × String)
deriving DecidableEq, Repr

/-- Embedding of `getConnectivityData` (src/unnamed/part_001 lines 19–67),
including the missing-position guard. -/
def getConnectivityData (pos : String → Option Vec3) (ids : List String)
    (t : ℚ) : ConnectivityData :=
  if ids.length = 0 then { isFullyConnected := false, connections := [] }
  else if ids.length = 1 then { isFullyConnected := true, connections := [] }
  else
    let bc := buildConn pos t ids
    let start := ids.headI
    let visited := searchLoop bc.1 queuePush (ids.length + 1) [start] [start]
    { isFullyConnected := decide (visited.length = ids.length)
      connections := bc.2 }

/-! ## Weld aggregator (`handleWeld`, identical logic in
src/components/GameWorld.tsx lines 207–233 and src/unnamed/part_000 lines
217–236) -/

/-- One entry of `WeldedClusterData.stones`. -/
structure StonePart where
  offset : Vec3
  rotation : Vec3
  scale : ℚ
deriving DecidableEq, Repr

/-- The welded-cluster descriptor.  The radius is `maxDist + 1.2` where
`maxDist` comes from `Math.sqrt`, hence a real number. -/
structure WeldedClusterData where
  center : Vec3
  stones : List StonePart
  radius : ℝ

/-- Embedding of `handleWeld`: on empty ids the function returns before
producing any data (`if (ids.length === 0) return;`), otherwise it averages
the positions (the `forEach` accumulation of exact rationals is their list
sum), takes per-stone offsets with rotation zeroed and scale 1, and tracks
the running maximum of the `Math.sqrt` distances (`foldl max 0`). -/
noncomputable def handleWeld (ids : List String) (pos : String → Vec3) :
    Option WeldedClusterData :=
  if ids.length = 0 then none
  else
    let n : ℚ := (ids.length : ℚ)
    let cx := (ids.map fun i => (pos i).x).sum / n
    let cy := (ids.map fun i => (pos i).y).sum / n
    let cz := (ids.map fun i => (pos i).z).sum / n
    let center : Vec3 := ⟨cx, cy, cz⟩
    let maxDist : ℝ :=
      (ids.map fun i => Real.sqrt ((distSq (pos i) center : ℝ))).foldl max 0
    let stones := ids.map fun i =>
      StonePart.mk ⟨(pos i).x - cx, (pos i).y - cy, (pos i).z - cz⟩ ⟨0, 0, 0⟩ 1
    some { center := center, stones := stones, radius := maxDist + 6/5 }

/-! ## GameManager tick (`useFrame` callbacks)

React state set by `setPhase` / `setWeldedData` / `setConnectedIds` /
`setIsFullyConnected` inside a frame only becomes visible on the next
render, so within one `useFrame` call the phase and welded data are the
values from the start of the tick; the `.current` refs (`connectedTime`,
`clearedTime`) mutate synchronously.  Consequently a tick is a function of
the start-of-tick state and of the externally maintained position maps and
cluster position, and the two phase blocks are mutually exclusive.  The
level-complete callback is modelled as the returned Bool. -/

/-- Phase enum from src/types (WELDING is declared but never entered). -/
inductive LevelPhase where
  | GATHERING
  | WELDING
  | CLEARING
deriving DecidableEq, Repr

/-- Data the physics collaborator supplies to a tick: elapsed time, the
position-map snapshots (`Object.keys` order plus lookup), and the live
cluster position ref. -/
structure TickInput where
  delta : ℚ
  stoneIds : List String
  stonePos : String → Vec3
  beanIds : List String
  beanPos : String → Vec3
  clusterPos : Option Vec3

/-- GameManager state of src/components/GameWorld.tsx. -/
structure GMStateW where
  phase : LevelPhase
  weldedData : Option WeldedClusterData
  connectedTime : ℚ
  clearedTime : ℚ

/-- GameManager state of src/unnamed/part_000 (adds the highlighting
state `connectedIds` / `isFullyConnected`). -/
structure GMStateHt where
  phase : LevelPhase
  weldedData : Option WeldedClusterData
  connectedIds : Finset String
  isFullyConnected : Bool
  connectedTime : ℚ
  clearedTime : ℚ

/-- Bean-inside test of src/components/GameWorld.tsx line 257:
`(dx*dx + dz*dz) < weldedData.radius * weldedData.radius`. -/
def beanInsidePlanar (c : Vec3) (r : ℝ) (b : Vec3) : Prop :=
  (((b.x - c.x) * (b.x - c.x) + (b.z - c.z) * (b.z - c.z) : ℚ) : ℝ) < r * r

/-- Bean-inside test of src/unnamed/part_000 line 270:
`b[1] > -2 && (dx*dx + dz*dz) < weldedData.radius * weldedData.radius`. -/
def beanInsideHt (c : Vec3) (r : ℝ) (b : Vec3) : Prop :=
  (-2 : ℚ) < b.y ∧
    (((b.x - c.x) * (b.x - c.x) + (b.z - c.z) * (b.z - c.z) : ℚ) : ℝ) < r * r

/-- Clearing condition of src/components/GameWorld.tsx line 263:
`allOutside && beanIds.length > 0`, where the bean loop with `break` decides
whether some bean is inside. -/
def clearingCondW (c : Vec3) (r : ℝ) (beans : List Vec3) : Prop :=
  (¬ ∃ b ∈ beans, beanInsidePlanar c r b) ∧ beans ≠ []

/-- Clearing condition of src/unnamed/part_000 line 276:
`!anyInside && beanIds.length > 0`. -/
def clearingCondHt (c : Vec3) (r : ℝ) (beans : List Vec3) : Prop :=
  (¬ ∃ b ∈ beans, beanInsideHt c r b) ∧ beans ≠ []

/-- Effect of a `handleWeld()` call on the GameWorld.tsx manager state: on
non-empty ids it stores the cluster data and moves to CLEARING (both via
deferred `setState`, visible from the next tick on). -/
noncomputable def weldApplyW (inp : TickInput) (st : GMStateW) : GMStateW :=
  match handleWeld inp.stoneIds inp.stonePos with
  | none => st
  | some w => { st with weldedData := some w, phase := LevelPhase.CLEARING }

/-- GATHERING block of GameWorld.tsx `useFrame` (lines 236–246), threshold
1.85, weld debounce 1.2. -/
noncomputable def gatherUpdateW (stoneCount : ℕ) (inp : TickInput)
    (st : GMStateW) : GMStateW :=
  if inp.stoneIds.length = stoneCount then
    let ct :=
      if checkConnectivity inp.stonePos inp.stoneIds (37/20)
      then st.connectedTime + inp.delta else 0
    let st1 : GMStateW := { st with connectedTime := ct }
    if 6/5 < ct then weldApplyW inp st1 else st1
  else st

open Classical in
/-- CLEARING block of GameWorld.tsx `useFrame` (lines 248–270), fire
threshold 1.8; returns the updated state and whether `onLevelComplete` was
invoked this tick. -/
noncomputable def clearUpdateW (inp : TickInput) (st : GMStateW) :
    GMStateW × Bool :=
  match st.weldedData, inp.clusterPos with
  | some d, some cp =>
      let beans := inp.beanIds.map inp.beanPos
      let clt :=
        if clearingCondW cp d.radius beans then st.clearedTime + inp.delta else 0
      ({ st with clearedTime := clt }, decide ((9 : ℚ)/5 < clt))
  | _, _ => (st, false)

/-- One `useFrame` tick of the GameWorld.tsx manager. -/
noncomputable def gmTickW (stoneCount : ℕ) (inp : TickInput) (st : GMStateW) :
    GMStateW × Bool :=
  match st.phase with
  | LevelPhase.GATHERING => (gatherUpdateW stoneCount inp st, false)
  | LevelPhase.CLEARING => clearUpdateW inp st
  | LevelPhase.WELDING => (st, false)

/-- `newConnectedSet` accumulation of src/unnamed/part_000 line 244:
`newConnectedSet.add(a); newConnectedSet.add(b)` over the connection list. -/
def connSetOf (conns : List (String × String)) : Finset String :=
  conns.foldl (fun s p => insert p.2 (insert p.1 s)) ∅

/-- Effect of `handleWeld()` on the part_000 manager state. -/
noncomputable def weldApplyHt (inp : TickInput) (st : GMStateHt) : GMStateHt :=
  match handleWeld inp.stoneIds inp.stonePos with
  | none => st
  | some w => { st with weldedData := some w, phase := LevelPhase.CLEARING }

/-- GATHERING block of src/unnamed/part_000 `useFrame` (lines 239–258),
threshold 1.4, weld debounce 1.2, plus the highlight-state update guarded by
the change test on the previous values. -/
noncomputable def gatherUpdateHt (stoneCount : ℕ) (inp : TickInput)
    (st : GMStateHt) : GMStateHt :=
  if inp.stoneIds.length = stoneCount then
    let conn := getConnectivityData (fun i => some (inp.stonePos i))
      inp.stoneIds (7/5)
    let newSet := connSetOf conn.connections
    let st1 : GMStateHt :=
      if conn.isFullyConnected ≠ st.isFullyConnected ∨
          newSet.card ≠ st.connectedIds.card then
        { st with connectedIds := newSet, isFullyConnected := conn.isFullyConnected }
      else st
    let ct :=
      if conn.isFullyConnected then st.connectedTime + inp.delta else 0
    let st2 := { st1 with connectedTime := ct }
    if 6/5 < ct then weldApplyHt inp st2 else st2
  else st

open Classical in
/-- CLEARING block of src/unnamed/part_000 `useFrame` (lines 260–283), with
the `b[1] > -2` height guard and fire threshold 1.5. -/
noncomputable def clearUpdateHt (inp : TickInput) (st : GMStateHt) :
    GMStateHt × Bool :=
  match st.weldedData, inp.clusterPos with
  | some d, some cp =>
      let beans := inp.beanIds.map inp.beanPos
      let clt :=
        if clearingCondHt cp d.radius beans then st.clearedTime + inp.delta else 0
      ({ st with clearedTime := clt }, decide ((3 : ℚ)/2 < clt))
  | _, _ => (st, false)

/-- One `useFrame` tick of the src/unnamed/part_000 manager. -/
noncomputable def gmTickHt (stoneCount : ℕ) (inp : TickInput) (st : GMStateHt) :
    GMStateHt × Bool :=
  match st.phase with
  | LevelPhase.GATHERING => (gatherUpdateHt stoneCount inp st, false)
  | LevelPhase.CLEARING => clearUpdateHt inp st
  | LevelPhase.WELDING => (st, false)

/-! ## Concrete fixtures used by witnesses and counterexamples -/

/-- A tick input with one stone at the origin, one bean far outside, and a
live cluster position at the origin. -/
def inpFar : TickInput :=
  { delta := 1
    stoneIds := ["a"]
    stonePos := fun _ => ⟨0, 0, 0⟩
    beanIds := ["b1"]
    beanPos := fun _ => ⟨10, 0, 10⟩
    clusterPos := some ⟨0, 0, 0⟩ }

/-- A tick input whose single bean sits below the floor at the cluster
center. -/
def inpFallen : TickInput :=
  { delta := 1
    stoneIds := ["a"]
    stonePos := fun _ => ⟨0, 0, 0⟩
    beanIds := ["b1"]
    beanPos := fun _ => ⟨0, -3, 0⟩
    clusterPos := some ⟨0, 0, 0⟩ }

/-- A GameWorld.tsx manager state in GATHERING. -/
def stGatherW : GMStateW :=
  { phase := LevelPhase.GATHERING, weldedData := none
    connectedTime := 0, clearedTime := 0 }

/-- A GameWorld.tsx manager state in CLEARING with a welded cluster of
radius 2 at the origin and an accumulator already above the fire
threshold. -/
def stClearW : GMStateW :=
  { phase := LevelPhase.CLEARING
    weldedData := some { center := ⟨0, 0, 0⟩, stones := [], radius := 2 }
    connectedTime := 0, clearedTime := 5 }

/-- A part_000 manager state in GATHERING. -/
def stGatherHt : GMStateHt :=
  { phase := LevelPhase.GATHERING, weldedData := none
    connectedIds := ∅, isFullyConnected := false
    connectedTime := 0, clearedTime := 0 }

/-- A part_000 manager state in CLEARING with a welded cluster of radius 2
at the origin. -/
def stClearHt : GMStateHt :=
  { phase := LevelPhase.CLEARING
    weldedData := some { center := ⟨0, 0, 0⟩, stones := [], radius := 2 }
    connectedIds := ∅, isFullyConnected := false
    connectedTime := 0, clearedTime := 0 }

/-! ## Spec-side definitions (stated from the specification's words, for
comparison with the embedded code) -/

/-- Edge of the spec's proximity graph: an unordered pair of distinct
vertices (ids) whose Euclidean distance is below the threshold. -/
noncomputable def proxEdge (pos : String → Vec3) (t : ℚ) (ids : List String)
    (a b : String) : Prop :=
  a ∈ ids ∧ b ∈ ids ∧ a ≠ b ∧ euclidDist (pos a) (pos b) < (t : ℝ)

/-- The spec's notion of full connectivity: every id is reachable in the
proximity graph from the arbitrary start id `ids[0]`. -/
noncomputable def graphConnected (pos : String → Vec3) (t : ℚ)
    (ids : List String) : Prop :=
  ∀ b ∈ ids, Relation.ReflTransGen (proxEdge pos t ids) ids.headI b

/-- Spec-side centroid: the arithmetic mean of the listed positions. -/
def specCentroid (ids : List String) (pos : String → Vec3) : Vec3 :=
  ⟨(ids.map fun i => (pos i).x).sum / (ids.length : ℚ),
    (ids.map fun i => (pos i).y).sum / (ids.length : ℚ),
    (ids.map fun i => (pos i).z).sum / (ids.length : ℚ)⟩

/-- Largest squared offset norm among the listed positions (running max, as
in the source). -/
def maxOffsetSq (ids : List String) (pos : String → Vec3) (center : Vec3) : ℚ :=
  (ids.map fun i => distSq (pos i) center).foldl max 0

/-! ## Basic lemmas -/

theorem distSq_comm (a b : Vec3) : distSq a b = distSq b a := by
  unfold distSq; ring

theorem distSq_nonneg (a b : Vec3) : 0 ≤ distSq a b := by
  have h : distSq a b = (a.x - b.x) ^ 2 + (a.y - b.y) ^ 2 + (a.z - b.z) ^ 2 := by
    unfold distSq; ring
  rw [h]; positivity

/-- The boolean squared-distance test is exactly the real comparison
`dist(a,b) < t` performed by the source. -/
theorem nearB_iff_dist_lt (a b : Vec3) (t : ℚ) :
    nearB a b t = true ↔ euclidDist a b < (t : ℝ) := by
  unfold nearB euclidDist
  simp only [Bool.and_eq_true, decide_eq_true_eq]
  constructor
  · rintro ⟨ht, hd⟩
    have ht' : (0 : ℝ) < (t : ℝ) := by exact_mod_cast ht
    rw [Real.sqrt_lt' ht']
    have hlt : ((distSq a b : ℚ) : ℝ) < (t : ℝ) * (t : ℝ) := by exact_mod_cast hd
    calc ((distSq a b : ℚ) : ℝ) < (t : ℝ) * (t : ℝ) := hlt
      _ = (t : ℝ) ^ 2 := by ring
  · intro h
    have hnn : (0 : ℝ) ≤ Real.sqrt ((distSq a b : ℚ) : ℝ) := Real.sqrt_nonneg _
    have ht' : (0 : ℝ) < (t : ℝ) := lt_of_le_of_lt hnn h
    have ht : (0 : ℚ) < t := by exact_mod_cast ht'
    refine ⟨ht, ?_⟩
    rw [Real.sqrt_lt' ht'] at h
    have hlt : ((distSq a b : ℚ) : ℝ) < (t : ℝ) * (t : ℝ) := by
      calc ((distSq a b : ℚ) : ℝ) < (t : ℝ) ^ 2 := h
        _ = (t : ℝ) * (t : ℝ) := by ring
    exact_mod_cast hlt

example :
    checkConnectivity
      (fun i => if i = "a" then ⟨0, 0, 0⟩ else if i = "b" then ⟨1, 0, 0⟩ else ⟨2, 0, 0⟩)
      ["a", "b", "c"] (7/5) = true := by
  have h1 : nearB ⟨0, 0, 0⟩ ⟨1, 0, 0⟩ (7/5) = true := by norm_num [nearB, distSq]
  have h2 : nearB ⟨0, 0, 0⟩ ⟨2, 0, 0⟩ (7/5) = false := by norm_num [nearB, distSq]
  have h3 : nearB ⟨1, 0, 0⟩ ⟨2, 0, 0⟩ (7/5) = true := by norm_num [nearB, distSq]
  simp [checkConnectivity, buildAdj, pairs, stepAdj, addEdge, pushNbr,
    searchLoop, visitStep, stackPush, h1, h2, h3]

example :
    (getConnectivityData
      (fun i => if i = "a" then some ⟨0, 0, 0⟩ else if i = "b" then some ⟨1, 0, 0⟩ else some ⟨2, 0, 0⟩)
      ["a", "b", "c"] (7/5)).isFullyConnected = true := by
  have h1 : nearB ⟨0, 0, 0⟩ ⟨1, 0, 0⟩ (7/5) = true := by norm_num [nearB, distSq]
  have h2 : nearB ⟨0, 0, 0⟩ ⟨2, 0, 0⟩ (7/5) = false := by norm_num [nearB, distSq]
  have h3 : nearB ⟨1, 0, 0⟩ ⟨2, 0, 0⟩ (7/5) = true := by norm_num [nearB, distSq]
  simp [getConnectivityData, buildConn, pairs, stepConn, addEdge, pushNbr,
    searchLoop, visitStep, queuePush, h1, h2, h3]

/-! ## Claim C7: level config formulas -/

/-- C7: for every level ≥ 1, `generateLevelConfig` returns
stoneCount = min(3 + floor((level−1)/3), 12), beanCount = min(15 + (level−1)·4, 100)
and beanTypes = 2 iff level ≥ 16 (else 1); in particular level 1 gives
(3, 15, 1) and level 16 gives (8, 75, 2).  The function is a pure function of
its argument by construction. -/
theorem generateLevelConfig_spec :
    (∀ level : ℕ, 1 ≤ level →
      (generateLevelConfig level).stoneCount
          = min (3 + Nat.floor (((level : ℚ) - 1) / 3)) 12 ∧
      ((generateLevelConfig level).beanCount : ℚ)
          = min (15 + ((level : ℚ) - 1) * 4) 100 ∧
      (generateLevelConfig level).beanTypes = (if 16 ≤ level then 2 else 1)) ∧
    generateLevelConfig 1 = ⟨1, 3, 15, 1⟩ ∧
    generateLevelConfig 16 = ⟨16, 8, 75, 2⟩ := by
  refine ⟨fun level h => ?_, by decide, by decide⟩
  have hc : ((level : ℚ) - 1) = ((level - 1 : ℕ) : ℚ) := by
    push_cast [Nat.cast_sub h]; ring
  refine ⟨?_, ?_, rfl⟩
  · rw [hc]
    have h3 : ((3 : ℚ)) = ((3 : ℕ) : ℚ) := by norm_num
    rw [h3, Nat.floor_div_eq_div]
    rfl
  · rw [hc]
    show ((min (15 + (level - 1) * 4) 100 : ℕ) : ℚ) = _
    push_cast
    rfl

/-- Witness for `generateLevelConfig_spec` at level 7. -/
theorem generateLevelConfig_spec_witness :
    (generateLevelConfig 7).stoneCount
        = min (3 + Nat.floor (((7 : ℚ) - 1) / 3)) 12 ∧
    ((generateLevelConfig 7).beanCount : ℚ)
        = min (15 + ((7 : ℚ) - 1) * 4) 100 ∧
    (generateLevelConfig 7).beanTypes = (if 16 ≤ 7 then 2 else 1) :=
  generateLevelConfig_spec.1 7 (by norm_num)

/-! ## Claim C5: empty id set

The claim states the connectivity check reports `false` on the empty id set.
That is true of `getConnectivityData` (src/unnamed/part_001 line 24) but
false of `checkConnectivity` (src/utils.ts line 28 returns `true` whenever
`ids.length <= 1`). -/

/-- C5 counterexample: `checkConnectivity` on the empty id set reports
`true`, not `false` as claimed. -/
theorem checkConnectivity_empty_counterexample :
    checkConnectivity (fun _ => ⟨0, 0, 0⟩) [] 1 ≠ false := by
  simp [checkConnectivity]

/-- C5 amended: on the empty id set, `getConnectivityData` reports not fully
connected (`false`) while `checkConnectivity` reports `true`; both are total
(no exception path). -/
theorem connectivity_empty_ids (posOpt : String → Option Vec3)
    (pos : String → Vec3) (t : ℚ) :
    getConnectivityData posOpt [] t
        = { isFullyConnected := false, connections := [] } ∧
    checkConnectivity pos [] t = true := by
  constructor
  · rfl
  · simp [checkConnectivity]

/-! ## Claim C2: the weld aggregator -/

/-- Taking `Real.sqrt` pointwise commutes with the running maximum, since
the square root is monotone. -/
theorem foldl_max_sqrt (l : List ℚ) (a : ℚ) :
    (l.map fun q : ℚ => Real.sqrt ((q : ℝ))).foldl max (Real.sqrt ((a : ℝ)))
      = Real.sqrt (((l.foldl max a : ℚ) : ℝ)) := by
  induction l generalizing a with
  | nil => rfl
  | cons q l ih =>
      have hmono : Monotone fun q : ℚ => Real.sqrt ((q : ℝ)) := by
        intro u v huv
        exact Real.sqrt_le_sqrt (by exact_mod_cast huv)
      have hmax : max (Real.sqrt ((a : ℝ))) (Real.sqrt ((q : ℝ)))
          = Real.sqrt (((max a q : ℚ) : ℝ)) := (hmono.map_max).symm
      simpa [hmax] using ih (max a q)

/-- C2: for non-empty ids, `handleWeld` produces data whose center is the
arithmetic mean of the positions, whose stone entries carry offset
(position − center), zero rotation and scale 1, and whose radius is the
maximum offset norm plus the 1.2 margin; in particular welding stones at
(−1,0,0) and (1,0,0) gives center (0,0,0), offsets (−1,0,0) and (1,0,0) and
radius 2.2. -/
theorem handleWeld_spec :
    (∀ (ids : List String) (pos : String → Vec3), ids ≠ [] →
      ∃ w, handleWeld ids pos = some w ∧
        w.center = specCentroid ids pos ∧
        w.stones = (ids.map fun i => StonePart.mk
          ⟨(pos i).x - (specCentroid ids pos).x,
            (pos i).y - (specCentroid ids pos).y,
            (pos i).z - (specCentroid ids pos).z⟩ ⟨0, 0, 0⟩ 1) ∧
        w.radius
          = Real.sqrt ((maxOffsetSq ids pos (specCentroid ids pos) : ℝ)) + 6/5) ∧
    (∃ w, handleWeld ["a", "b"]
          (fun i => if i = "a" then ⟨-1, 0, 0⟩ else ⟨1, 0, 0⟩) = some w ∧
      w.center = ⟨0, 0, 0⟩ ∧
      w.stones = [⟨⟨-1, 0, 0⟩, ⟨0, 0, 0⟩, 1⟩, ⟨⟨1, 0, 0⟩, ⟨0, 0, 0⟩, 1⟩] ∧
      w.radius = 11/5) := by
  have main : ∀ (ids : List String) (pos : String → Vec3), ids ≠ [] →
      ∃ w, handleWeld ids pos = some w ∧
        w.center = specCentroid ids pos ∧
        w.stones = (ids.map fun i => StonePart.mk
          ⟨(pos i).x - (specCentroid ids pos).x,
            (pos i).y - (specCentroid ids pos).y,
            (pos i).z - (specCentroid ids pos).z⟩ ⟨0, 0, 0⟩ 1) ∧
        w.radius
          = Real.sqrt ((maxOffsetSq ids pos (specCentroid ids pos) : ℝ)) + 6/5 := by
    intro ids pos hne
    have h0 : ¬ ids.length = 0 := by
      simpa [List.length_eq_zero] using hne
    refine ⟨_, by rw [handleWeld, if_neg h0], rfl, rfl, ?_⟩
    show (ids.map fun i =>
        Real.sqrt ((distSq (pos i) (specCentroid ids pos) : ℝ))).foldl max 0 + 6/5 = _
    have hz : (0 : ℝ) = Real.sqrt (((0 : ℚ) : ℝ)) := by simp
    have hcomp : (fun i => Real.sqrt ((distSq (pos i) (specCentroid ids pos) : ℝ)))
        = (fun q : ℚ => Real.sqrt ((q : ℝ))) ∘ (fun i => distSq (pos i) (specCentroid ids pos)) :=
      rfl
    rw [maxOffsetSq, hz, hcomp, ← List.map_map, foldl_max_sqrt]
  refine ⟨main, ?_⟩
  obtain ⟨w, hw, hc, hs, hr⟩ :=
    main ["a", "b"] (fun i => if i = "a" then ⟨-1, 0, 0⟩ else ⟨1, 0, 0⟩) (by simp)
  have hcen : specCentroid ["a", "b"]
      (fun i => if i = "a" then ⟨-1, 0, 0⟩ else ⟨1, 0, 0⟩) = ⟨0, 0, 0⟩ := by
    simp [specCentroid]
  refine ⟨w, hw, ?_, ?_, ?_⟩
  · rw [hc, hcen]
  · rw [hs, hcen]
    simp
  · rw [hr]
    have h1 : maxOffsetSq ["a", "b"]
        (fun i => if i = "a" then ⟨-1, 0, 0⟩ else ⟨1, 0, 0⟩)
        (specCentroid ["a", "b"] (fun i => if i = "a" then ⟨-1, 0, 0⟩ else ⟨1, 0, 0⟩))
        = 1 := by
      rw [hcen]
      simp [maxOffsetSq, distSq, max_def]
    rw [h1]
    norm_num [Real.sqrt_one]

/-- Witness for `handleWeld_spec` at a singleton id list. -/
theorem handleWeld_spec_witness :
    ∃ w, handleWeld ["a"] (fun _ => ⟨0, 0, 0⟩) = some w ∧
      w.center = specCentroid ["a"] (fun _ => ⟨0, 0, 0⟩) ∧
      w.stones = (["a"].map fun i => StonePart.mk
        ⟨((fun _ : String => (⟨0, 0, 0⟩ : Vec3)) i).x
            - (specCentroid ["a"] (fun _ => ⟨0, 0, 0⟩)).x,
          ((fun _ : String => (⟨0, 0, 0⟩ : Vec3)) i).y
            - (specCentroid ["a"] (fun _ => ⟨0, 0, 0⟩)).y,
          ((fun _ : String => (⟨0, 0, 0⟩ : Vec3)) i).z
            - (specCentroid ["a"] (fun _ => ⟨0, 0, 0⟩)).z⟩ ⟨0, 0, 0⟩ 1) ∧
      w.radius = Real.sqrt ((maxOffsetSq ["a"] (fun _ => ⟨0, 0, 0⟩)
        (specCentroid ["a"] (fun _ => ⟨0, 0, 0⟩)) : ℝ)) + 6/5 :=
  handleWeld_spec.1 ["a"] (fun _ => ⟨0, 0, 0⟩) (by simp)

/-! ## Claim C8: centroid is permutation invariant -/

/-- The center stored by `handleWeld` is the centroid (or nothing on empty
ids). -/
theorem handleWeld_center (ids : List String) (pos : String → Vec3) :
    (handleWeld ids pos).map WeldedClusterData.center
      = if ids.length = 0 then none else some (specCentroid ids pos) := by
  unfold handleWeld
  by_cases h0 : ids.length = 0
  · simp [h0]
  · simp only [h0, if_false, Option.map_some']
    rfl

/-- C8: permuting the input ids leaves the weld centroid unchanged. -/
theorem weld_centroid_perm_invariant (ids1 ids2 : List String)
    (pos : String → Vec3) (h : ids1.Perm ids2) :
    (handleWeld ids1 pos).map WeldedClusterData.center
      = (handleWeld ids2 pos).map WeldedClusterData.center := by
  have hlen : ids1.length = ids2.length := h.length_eq
  have hsum : ∀ f : String → ℚ, (ids1.map f).sum = (ids2.map f).sum := by
    intro f
    exact (h.map f).sum_eq
  have hcen : specCentroid ids1 pos = specCentroid ids2 pos := by
    unfold specCentroid
    rw [hlen, hsum (fun i => (pos i).x), hsum (fun i => (pos i).y),
      hsum (fun i => (pos i).z)]
  rw [handleWeld_center, handleWeld_center, hlen, hcen]

/-- Witness for `weld_centroid_perm_invariant` on the swap of a two-id
list. -/
theorem weld_centroid_perm_invariant_witness :
    (handleWeld ["a", "b"] (fun i => if i = "a" then ⟨-1, 0, 0⟩ else ⟨1, 0, 0⟩)).map
        WeldedClusterData.center
      = (handleWeld ["b", "a"] (fun i => if i = "a" then ⟨-1, 0, 0⟩ else ⟨1, 0, 0⟩)).map
        WeldedClusterData.center :=
  weld_centroid_perm_invariant _ _ _ (List.Perm.swap "b" "a" [])

/-! ## Tick-machine lemmas -/

/-- `handleWeld()` never touches the `connectedTime` ref (GameWorld.tsx). -/
theorem weldApplyW_connectedTime (inp : TickInput) (st : GMStateW) :
    (weldApplyW inp st).connectedTime = st.connectedTime := by
  unfold weldApplyW
  cases h : handleWeld inp.stoneIds inp.stonePos <;> simp

/-- `handleWeld()` never touches the `connectedTime` ref (part_000). -/
theorem weldApplyHt_connectedTime (inp : TickInput) (st : GMStateHt) :
    (weldApplyHt inp st).connectedTime = st.connectedTime := by
  unfold weldApplyHt
  cases h : handleWeld inp.stoneIds inp.stonePos <;> simp

/-! ## Claim C9: GATHERING tick with an incomplete stone count is a no-op -/

/-- C9: on a GATHERING tick on which the number of reporting stone ids
differs from the configured stoneCount, both managers skip the connectivity
check entirely and change nothing: the returned state is the input state
(phase still GATHERING, welded data unchanged, accumulators unchanged) and
no level-complete fires. -/
theorem gathering_incomplete_skip (n : ℕ) (inp : TickInput)
    (hn : inp.stoneIds.length ≠ n) :
    (∀ st : GMStateW, st.phase = LevelPhase.GATHERING →
      gmTickW n inp st = (st, false)) ∧
    (∀ st : GMStateHt, st.phase = LevelPhase.GATHERING →
      gmTickHt n inp st = (st, false)) := by
  constructor
  · intro st hp
    simp [gmTickW, hp, gatherUpdateW, hn]
  · intro st hp
    simp [gmTickHt, hp, gatherUpdateHt, hn]

/-- Witness for `gathering_incomplete_skip`: one reported stone against a
configured count of 2. -/
theorem gathering_incomplete_skip_witness :
    gmTickW 2 inpFar stGatherW = (stGatherW, false) ∧
    gmTickHt 2 inpFar stGatherHt = (stGatherHt, false) :=
  ⟨(gathering_incomplete_skip 2 inpFar (by simp [inpFar])).1 stGatherW rfl,
    (gathering_incomplete_skip 2 inpFar (by simp [inpFar])).2 stGatherHt rfl⟩

/-! ## Claim C6: accumulator reset/increment semantics -/

open Classical in
/-- C6: whenever a hysteresis accumulator's guarding condition is evaluated
(full connectivity on a GATHERING tick with the full stone count reporting;
the clearing condition on a CLEARING tick with welded data and a live
cluster position), the accumulator becomes exactly `previous + Δt` if the
condition holds and exactly `0` if it does not — in all four cases
(GameWorld.tsx and part_000, GATHERING and CLEARING). -/
theorem accumulator_tick_spec (n : ℕ) (inp : TickInput) :
    (∀ st : GMStateW, st.phase = LevelPhase.GATHERING →
      inp.stoneIds.length = n →
      (gmTickW n inp st).1.connectedTime
        = if checkConnectivity inp.stonePos inp.stoneIds (37/20) = true
          then st.connectedTime + inp.delta else 0) ∧
    (∀ (st : GMStateW) (d : WeldedClusterData) (cp : Vec3),
      st.phase = LevelPhase.CLEARING →
      st.weldedData = some d → inp.clusterPos = some cp →
      (gmTickW n inp st).1.clearedTime
        = if clearingCondW cp d.radius (inp.beanIds.map inp.beanPos)
          then st.clearedTime + inp.delta else 0) ∧
    (∀ st : GMStateHt, st.phase = LevelPhase.GATHERING →
      inp.stoneIds.length = n →
      (gmTickHt n inp st).1.connectedTime
        = if (getConnectivityData (fun i => some (inp.stonePos i))
              inp.stoneIds (7/5)).isFullyConnected = true
          then st.connectedTime + inp.delta else 0) ∧
    (∀ (st : GMStateHt) (d : WeldedClusterData) (cp : Vec3),
      st.phase = LevelPhase.CLEARING →
      st.weldedData = some d → inp.clusterPos = some cp →
      (gmTickHt n inp st).1.clearedTime
        = if clearingCondHt cp d.radius (inp.beanIds.map inp.beanPos)
          then st.clearedTime + inp.delta else 0) := by
  refine ⟨?_, ?_, ?_, ?_⟩
  · intro st hp hlen
    simp only [gmTickW, hp, gatherUpdateW, hlen, if_pos]
    split <;> split <;>
      first
      | rw [weldApplyW_connectedTime]
      | rfl
  · intro st d cp hp hwd hcp
    simp only [gmTickW, hp, clearUpdateW, hwd, hcp]
  · intro st hp hlen
    simp only [gmTickHt, hp, gatherUpdateHt, hlen, if_pos]
    split <;> split <;>
      first
      | rw [weldApplyHt_connectedTime]
      | rfl
  · intro st d cp hp hwd hcp
    simp only [gmTickHt, hp, clearUpdateHt, hwd, hcp]

/-- Witness for `accumulator_tick_spec`: with one configured stone (trivially
connected) and one far-away bean, all four accumulators advance by the
tick's Δt = 1 from their stored values. -/
theorem accumulator_tick_spec_witness :
    (gmTickW 1 inpFar stGatherW).1.connectedTime = 1 ∧
    (gmTickW 1 inpFar stClearW).1.clearedTime = 6 ∧
    (gmTickHt 1 inpFar stGatherHt).1.connectedTime = 1 ∧
    (gmTickHt 1 inpFar stClearHt).1.clearedTime = 1 := by
  have hcc : checkConnectivity inpFar.stonePos inpFar.stoneIds (37/20) = true := by
    simp [checkConnectivity, inpFar]
  have hgc : (getConnectivityData (fun i => some (inpFar.stonePos i))
      inpFar.stoneIds (7/5)).isFullyConnected = true := by
    simp [getConnectivityData, inpFar]
  have hcondW : clearingCondW ⟨0, 0, 0⟩ ((2 : ℝ)) (inpFar.beanIds.map inpFar.beanPos) := by
    constructor
    · rintro ⟨b, hb, hin⟩
      simp only [inpFar, List.map_cons, List.map_nil, List.mem_singleton] at hb
      subst hb
      unfold beanInsidePlanar at hin
      norm_num at hin
    · simp [inpFar]
  have hcondHt : clearingCondHt ⟨0, 0, 0⟩ ((2 : ℝ)) (inpFar.beanIds.map inpFar.beanPos) := by
    constructor
    · rintro ⟨b, hb, hin⟩
      simp only [inpFar, List.map_cons, List.map_nil, List.mem_singleton] at hb
      subst hb
      unfold beanInsideHt at hin
      norm_num at hin
    · simp [inpFar]
  refine ⟨?_, ?_, ?_, ?_⟩
  · have h := (accumulator_tick_spec 1 inpFar).1 stGatherW rfl rfl
    rw [h, if_pos hcc]
    norm_num [stGatherW, inpFar]
  · have h := (accumulator_tick_spec 1 inpFar).2.1 stClearW
      ⟨⟨0, 0, 0⟩, [], 2⟩ ⟨0, 0, 0⟩ rfl rfl rfl
    rw [h, if_pos hcondW]
    norm_num [stClearW, inpFar]
  · have h := (accumulator_tick_spec 1 inpFar).2.2.1 stGatherHt rfl rfl
    rw [h, if_pos hgc]
    norm_num [stGatherHt, inpFar]
  · have h := (accumulator_tick_spec 1 inpFar).2.2.2 stClearHt
      ⟨⟨0, 0, 0⟩, [], 2⟩ ⟨0, 0, 0⟩ rfl rfl rfl
    rw [h, if_pos hcondHt]
    norm_num [stClearHt, inpFar]

/-! ## Claim C4: level-complete firing

The tick logic has no once-only latch: `if (clearedTime.current > 1.8)
onLevelComplete();` runs on every CLEARING tick, so as long as the manager
keeps being ticked with the clearing condition holding, the callback fires
again on every subsequent tick.  In the assembled app it fires once per level
only because the first invocation flips the external phase, which pauses and
unmounts the manager. -/

/-- C4 counterexample: two consecutive ticks on the same CLEARING state with
the accumulator above the threshold both invoke the level-complete
callback. -/
theorem levelComplete_refires_counterexample :
    (gmTickW 1 inpFar stClearW).2 = true ∧
    (gmTickW 1 inpFar (gmTickW 1 inpFar stClearW).1).2 = true := by
  have hcond : clearingCondW ⟨0, 0, 0⟩ ((2 : ℝ)) [⟨10, 0, 10⟩] := by
    constructor
    · rintro ⟨b, hb, hin⟩
      simp only [List.mem_singleton] at hb
      subst hb
      unfold beanInsidePlanar at hin
      norm_num at hin
    · simp
  have tick : ∀ q : ℚ, gmTickW 1 inpFar
      { phase := LevelPhase.CLEARING
        weldedData := some { center := ⟨0, 0, 0⟩, stones := [], radius := 2 }
        connectedTime := 0, clearedTime := q }
      = ({ phase := LevelPhase.CLEARING
           weldedData := some { center := ⟨0, 0, 0⟩, stones := [], radius := 2 }
           connectedTime := 0, clearedTime := q + 1 },
          decide ((9 : ℚ)/5 < q + 1)) := by
    intro q
    simp only [gmTickW, clearUpdateW, inpFar, List.map_cons, List.map_nil,
      if_pos hcond]
  have hst : stClearW =
      { phase := LevelPhase.CLEARING
        weldedData := some { center := ⟨0, 0, 0⟩, stones := [], radius := 2 }
        connectedTime := 0, clearedTime := 5 } := rfl
  constructor
  · rw [hst, tick 5]
    norm_num
  · have h2 : (gmTickW 1 inpFar stClearW).1 =
        { phase := LevelPhase.CLEARING
          weldedData := some { center := ⟨0, 0, 0⟩, stones := [], radius := 2 }
          connectedTime := 0, clearedTime := 5 + 1 } := by
      rw [hst, tick 5]
    rw [h2, tick (5 + 1)]
    norm_num

/-- C4 amended: the level-complete callback is invoked on a tick exactly
when the manager is in CLEARING with welded data and a live cluster
position present and the updated accumulator exceeds the threshold (1.8 in
GameWorld.tsx, 1.5 in part_000); there is no once-only latch in the tick
logic itself, so it keeps firing on later such ticks (see the
counterexample), and the exactly-once behaviour of the assembled app comes
from the external collaborator unmounting the manager after the first
invocation. -/
theorem levelComplete_fire_iff (n : ℕ) (inp : TickInput) :
    (∀ st : GMStateW, ((gmTickW n inp st).2 = true ↔
      st.phase = LevelPhase.CLEARING ∧ ∃ d cp, st.weldedData = some d ∧
        inp.clusterPos = some cp ∧
        (9 : ℚ)/5 < (gmTickW n inp st).1.clearedTime)) ∧
    (∀ st : GMStateHt, ((gmTickHt n inp st).2 = true ↔
      st.phase = LevelPhase.CLEARING ∧ ∃ d cp, st.weldedData = some d ∧
        inp.clusterPos = some cp ∧
        (3 : ℚ)/2 < (gmTickHt n inp st).1.clearedTime)) := by
  constructor
  · intro st
    cases hph : st.phase
    · simp [gmTickW, hph]
    · simp [gmTickW, hph]
    · cases hwd : st.weldedData with
      | none => simp [gmTickW, hph, clearUpdateW, hwd]
      | some d =>
          cases hcp : inp.clusterPos with
          | none => simp [gmTickW, hph, clearUpdateW, hwd, hcp]
          | some cp => simp [gmTickW, hph, clearUpdateW, hwd, hcp]
  · intro st
    cases hph : st.phase
    · simp [gmTickHt, hph]
    · simp [gmTickHt, hph]
    · cases hwd : st.weldedData with
      | none => simp [gmTickHt, hph, clearUpdateHt, hwd]
      | some d =>
          cases hcp : inp.clusterPos with
          | none => simp [gmTickHt, hph, clearUpdateHt, hwd, hcp]
          | some cp => simp [gmTickHt, hph, clearUpdateHt, hwd, hcp]

/-! ## Claim C3: the CLEARING-phase inside test

The claim's bean-inside criterion (squared planar distance < radius²) is
exactly GameWorld.tsx's test, but src/unnamed/part_000 additionally requires
the bean's height to exceed −2, so a fallen bean inside the planar radius
does not block clearing there. -/

/-- C3 counterexample: with cluster radius 2 and live center at the origin,
a bean at (0,−3,0) is inside by the claim's planar criterion, yet the
part_000 tick treats the sieve as cleared and advances the accumulator from
0 to Δt = 1 instead of resetting it. -/
theorem clearing_inside_height_counterexample :
    beanInsidePlanar ⟨0, 0, 0⟩ ((2 : ℝ)) ⟨0, -3, 0⟩ ∧
    (gmTickHt 1 inpFallen stClearHt).1.clearedTime = 1 := by
  constructor
  · unfold beanInsidePlanar
    norm_num
  · have hcond : clearingCondHt ⟨0, 0, 0⟩ ((2 : ℝ)) [⟨0, -3, 0⟩] := by
      constructor
      · rintro ⟨b, hb, hin⟩
        simp only [List.mem_singleton] at hb
        subst hb
        unfold beanInsideHt at hin
        norm_num at hin
      · simp
    have hst : stClearHt =
        { phase := LevelPhase.CLEARING
          weldedData := some { center := ⟨0, 0, 0⟩, stones := [], radius := 2 }
          connectedIds := ∅, isFullyConnected := false
          connectedTime := 0, clearedTime := 0 } := rfl
    rw [hst]
    simp only [gmTickHt, clearUpdateHt, inpFallen, List.map_cons, List.map_nil,
      if_pos hcond]
    norm_num

open Classical in
/-- C3 amended: on a CLEARING tick with welded data and a live cluster
position, the accumulator advances exactly when the clearing condition
holds, which requires at least one bean and no bean counting as inside; a
bean counts as inside in GameWorld.tsx exactly when its squared planar
(x,z) distance from the live center is below radius², while part_000
additionally requires the bean's height y > −2 (fallen beans never count as
inside there). -/
theorem clearing_condition_spec :
    (∀ (c : Vec3) (r : ℝ) (beans : List Vec3),
      clearingCondW c r beans ↔
        beans ≠ [] ∧ ∀ b ∈ beans, ¬ beanInsidePlanar c r b) ∧
    (∀ (c : Vec3) (r : ℝ) (beans : List Vec3),
      clearingCondHt c r beans ↔
        beans ≠ [] ∧ ∀ b ∈ beans, ¬ beanInsideHt c r b) ∧
    (∀ (c : Vec3) (r : ℝ) (b : Vec3),
      beanInsideHt c r b ↔ (-2 : ℚ) < b.y ∧ beanInsidePlanar c r b) ∧
    (∀ (n : ℕ) (inp : TickInput) (st : GMStateW) (d : WeldedClusterData)
        (cp : Vec3), st.phase = LevelPhase.CLEARING →
      st.weldedData = some d → inp.clusterPos = some cp →
      (gmTickW n inp st).1.clearedTime
        = if clearingCondW cp d.radius (inp.beanIds.map inp.beanPos)
          then st.clearedTime + inp.delta else 0) ∧
    (∀ (n : ℕ) (inp : TickInput) (st : GMStateHt) (d : WeldedClusterData)
        (cp : Vec3), st.phase = LevelPhase.CLEARING →
      st.weldedData = some d → inp.clusterPos = some cp →
      (gmTickHt n inp st).1.clearedTime
        = if clearingCondHt cp d.radius (inp.beanIds.map inp.beanPos)
          then st.clearedTime + inp.delta else 0) := by
  refine ⟨?_, ?_, ?_, ?_, ?_⟩
  · intro c r beans
    unfold clearingCondW
    rw [and_comm]
    simp [not_exists]
  · intro c r beans
    unfold clearingCondHt
    rw [and_comm]
    simp [not_exists]
  · intro c r b
    unfold beanInsideHt beanInsidePlanar
    rfl
  · intro n inp st d cp hp hwd hcp
    simp only [gmTickW, hp, clearUpdateW, hwd, hcp]
  · intro n inp st d cp hp hwd hcp
    simp only [gmTickHt, hp, clearUpdateHt, hwd, hcp]

open Classical in
/-- Witness for `clearing_condition_spec`: the two tick equations
instantiated at the concrete CLEARING fixtures. -/
theorem clearing_condition_spec_witness :
    ((gmTickW 1 inpFar stClearW).1.clearedTime
      = if clearingCondW ⟨0, 0, 0⟩
          (WeldedClusterData.mk ⟨0, 0, 0⟩ [] 2).radius
          (inpFar.beanIds.map inpFar.beanPos)
        then stClearW.clearedTime + inpFar.delta else 0) ∧
    ((gmTickHt 1 inpFallen stClearHt).1.clearedTime
      = if clearingCondHt ⟨0, 0, 0⟩
          (WeldedClusterData.mk ⟨0, 0, 0⟩ [] 2).radius
          (inpFallen.beanIds.map inpFallen.beanPos)
        then stClearHt.clearedTime + inpFallen.delta else 0) :=
  ⟨clearing_condition_spec.2.2.2.1 1 inpFar stClearW
      ⟨⟨0, 0, 0⟩, [], 2⟩ ⟨0, 0, 0⟩ rfl rfl rfl,
    clearing_condition_spec.2.2.2.2 1 inpFallen stClearHt
      ⟨⟨0, 0, 0⟩, [], 2⟩ ⟨0, 0, 0⟩ rfl rfl rfl⟩

/-! ## Claim C10: connection entries require both positions present and
near -/

/-- Every pair the graph-building fold of `getConnectivityData` records
either was already recorded or passes the position-present and distance
guards. -/
theorem mem_foldl_stepConn (pos : String → Option Vec3) (t : ℚ) :
    ∀ (P : List (String × String))
      (st0 : (String → List String) × List (String × String))
      (p : String × String),
      p ∈ (P.foldl (stepConn pos t) st0).2 →
      p ∈ st0.2 ∨
        ∃ pa pb, pos p.1 = some pa ∧ pos p.2 = some pb ∧ nearB pa pb t = true := by
  intro P
  induction P with
  | nil => intro st0 p hp; exact Or.inl hp
  | cons q P ih =>
      intro st0 p hp
      rcases ih (stepConn pos t st0 q) p hp with h | h
      · unfold stepConn at h
        split at h
        · rename_i pa pb hq1 hq2
          split at h
          · rename_i hn
            have h2 : p ∈ st0.2 ++ [q] := h
            rcases List.mem_append.mp h2 with h3 | h3
            · exact Or.inl h3
            · rw [List.mem_singleton] at h3
              subst h3
              exact Or.inr ⟨pa, pb, hq1, hq2, hn⟩
          · exact Or.inl h
        · exact Or.inl h
      · exact Or.inr h

/-- The connection list is empty (short-circuit branches) or the one built
by the pair loop. -/
theorem getConnectivityData_connections_cases (pos : String → Option Vec3)
    (ids : List String) (t : ℚ) :
    (getConnectivityData pos ids t).connections = [] ∨
    (getConnectivityData pos ids t).connections = (buildConn pos t ids).2 := by
  unfold getConnectivityData
  by_cases h0 : ids.length = 0
  · rw [if_pos h0]; exact Or.inl rfl
  · rw [if_neg h0]
    by_cases h1 : ids.length = 1
    · rw [if_pos h1]; exact Or.inl rfl
    · rw [if_neg h1]; exact Or.inr rfl

/-- C10: `getConnectivityData` is total for every id list and position map
(missing entries included, modelled by the `Option`-valued map), and it
records a connection between two ids only when both ids have a position and
their Euclidean distance is below the threshold; a pair with a missing
position contributes no edge. -/
theorem getConnectivityData_connections_guard (pos : String → Option Vec3)
    (ids : List String) (t : ℚ) (a b : String)
    (hmem : (a, b) ∈ (getConnectivityData pos ids t).connections) :
    ∃ pa pb, pos a = some pa ∧ pos b = some pb ∧ nearB pa pb t = true := by
  rcases getConnectivityData_connections_cases pos ids t with h | h
  · rw [h] at hmem
    exact absurd hmem (List.not_mem_nil _)
  · rw [h] at hmem
    rcases mem_foldl_stepConn pos t (pairs ids) _ (a, b) hmem with h2 | h2
    · exact absurd h2 (List.not_mem_nil _)
    · exact h2

/-- Witness for `getConnectivityData_connections_guard` on a two-id map. -/
theorem getConnectivityData_connections_guard_witness :
    ∃ pa pb,
      (fun i => if i = "a" then some (⟨0, 0, 0⟩ : Vec3)
        else if i = "b" then some ⟨1, 0, 0⟩ else none) "a" = some pa ∧
      (fun i => if i = "a" then some (⟨0, 0, 0⟩ : Vec3)
        else if i = "b" then some ⟨1, 0, 0⟩ else none) "b" = some pb ∧
      nearB pa pb 2 = true := by
  have hnear : nearB ⟨0, 0, 0⟩ ⟨1, 0, 0⟩ 2 = true := by norm_num [nearB, distSq]
  refine getConnectivityData_connections_guard
    (fun i => if i = "a" then some (⟨0, 0, 0⟩ : Vec3)
      else if i = "b" then some ⟨1, 0, 0⟩ else none)
    ["a", "b"] 2 "a" "b" ?_
  simp [getConnectivityData, buildConn, pairs, stepConn, addEdge, pushNbr, hnear]

/-! ## Claim C1: correctness of the graph search

The worklist lemmas are stated for any `push` that appends one element
(both the stack and the queue discipline qualify). -/

/-- Membership in the visited component after one neighbor sweep. -/
theorem visitStep_fst_mem (push : List String → String → List String)
    (ns : List String) :
    ∀ (vw : List String × List String) (x : String),
      x ∈ (visitStep push vw ns).1 ↔ x ∈ vw.1 ∨ x ∈ ns := by
  induction ns with
  | nil => intro vw x; simp [visitStep]
  | cons n rest ih =>
      intro vw x
      unfold visitStep at ih ⊢
      simp only [List.foldl_cons]
      by_cases hn : n ∈ vw.1
      · rw [if_pos hn, ih]
        constructor
        · rintro (h | h)
          · exact Or.inl h
          · exact Or.inr (List.mem_cons_of_mem _ h)
        · rintro (h | h)
          · exact Or.inl h
          · rcases List.mem_cons.mp h with rfl | h2
            · exact Or.inl hn
            · exact Or.inr h2
      · rw [if_neg hn, ih]
        simp only [List.mem_append, List.mem_singleton, List.mem_cons]
        tauto

/-- Membership in the worklist component after one neighbor sweep: exactly
the old worklist plus the newly visited neighbors. -/
theorem visitStep_snd_mem (push : List String → String → List String)
    (hpm : ∀ (w : List String) (n x : String), x ∈ push w n ↔ x ∈ w ∨ x = n)
    (ns : List String) :
    ∀ (vw : List String × List String) (x : String),
      x ∈ (visitStep push vw ns).2 ↔ x ∈ vw.2 ∨ (x ∈ ns ∧ x ∉ vw.1) := by
  induction ns with
  | nil => intro vw x; simp [visitStep]
  | cons n rest ih =>
      intro vw x
      unfold visitStep at ih ⊢
      simp only [List.foldl_cons]
      by_cases hn : n ∈ vw.1
      · rw [if_pos hn, ih]
        simp only [List.mem_cons]
        constructor
        · rintro (h | ⟨h1, h2⟩)
          · exact Or.inl h
          · exact Or.inr ⟨Or.inr h1, h2⟩
        · rintro (h | ⟨h1 | h1, h2⟩)
          · exact Or.inl h
          · subst h1; exact absurd hn h2
          · exact Or.inr ⟨h1, h2⟩
      · rw [if_neg hn, ih]
        simp only [hpm, List.mem_append, List.mem_singleton, List.mem_cons,
          List.not_mem_nil, or_false]
        by_cases hx : x = n
        · subst hx
          simp [hn]
        · constructor
          · rintro ((h | h) | ⟨h1, h2⟩)
            · exact Or.inl h
            · exact absurd h hx
            · refine Or.inr ⟨Or.inr h1, fun hc => h2 (Or.inl hc)⟩
          · rintro (h | ⟨h1 | h1, h2⟩)
            · exact Or.inl (Or.inl h)
            · exact absurd h1 hx
            · exact Or.inr ⟨h1, fun hc => h2 (Or.elim hc id fun he => absurd he hx)⟩

/-- A neighbor sweep preserves distinctness of the visited list. -/
theorem visitStep_fst_nodup (push : List String → String → List String)
    (ns : List String) :
    ∀ vw : List String × List String, vw.1.Nodup → (visitStep push vw ns).1.Nodup := by
  induction ns with
  | nil => intro vw h; simpa [visitStep] using h
  | cons n rest ih =>
      intro vw h
      unfold visitStep at ih ⊢
      simp only [List.foldl_cons]
      by_cases hn : n ∈ vw.1
      · rw [if_pos hn]
        exact ih vw h
      · rw [if_neg hn]
        refine ih _ ?_
        simp [List.nodup_append, h, hn]

/-- A neighbor sweep grows the visited list and the worklist by the same
number of elements. -/
theorem visitStep_length (push : List String → String → List String)
    (hpl : ∀ (w : List String) (n : String), (push w n).length = w.length + 1)
    (ns : List String) :
    ∀ vw : List String × List String,
      (visitStep push vw ns).1.length + vw.2.length
        = (visitStep push vw ns).2.length + vw.1.length := by
  induction ns with
  | nil =>
      intro vw
      simp only [visitStep, List.foldl_nil]
      omega
  | cons n rest ih =>
      intro vw
      unfold visitStep at ih ⊢
      simp only [List.foldl_cons]
      by_cases hn : n ∈ vw.1
      · rw [if_pos hn]
        exact ih vw
      · rw [if_neg hn]
        have h2 := ih (vw.1 ++ [n], push vw.2 n)
        simp only [List.length_append, List.length_singleton, hpl] at h2
        omega

/-- A duplicate-free list of elements of a finite set is no longer than the
set's cardinality. -/
theorem nodup_length_le_card (l : List String) (U : Finset String)
    (hnd : l.Nodup) (hsub : ∀ x ∈ l, x ∈ U) : l.length ≤ U.card := by
  have h1 : l.toFinset ⊆ U := fun x hx => hsub x (List.mem_toFinset.mp hx)
  have h2 := Finset.card_le_card h1
  rwa [List.toFinset_card_of_nodup hnd] at h2

/-- Everything the search visits is reachable from a common source of the
initially visited nodes. -/
theorem searchLoop_sound (adj : String → List String)
    (push : List String → String → List String)
    (hpm : ∀ (w : List String) (n x : String), x ∈ push w n ↔ x ∈ w ∨ x = n)
    (s : String) :
    ∀ (fuel : ℕ) (visited work : List String),
      (∀ v ∈ visited, Relation.ReflTransGen (fun a b => b ∈ adj a) s v) →
      (∀ x ∈ work, x ∈ visited) →
      ∀ x ∈ searchLoop adj push fuel visited work,
        Relation.ReflTransGen (fun a b => b ∈ adj a) s x := by
  intro fuel
  induction fuel with
  | zero => intro visited work hv _ x hx; exact hv x hx
  | succ f ih =>
      intro visited work hv hw x hx
      cases work with
      | nil => exact hv x hx
      | cons c rest =>
          simp only [searchLoop] at hx
          refine ih _ _ ?_ ?_ x hx
          · intro v hvmem
            rcases (visitStep_fst_mem push (adj c) (visited, rest) v).mp hvmem
              with h | h
            · exact hv v h
            · exact (hv c (hw c (List.mem_cons_self c rest))).tail h
          · intro y hymem
            rcases (visitStep_snd_mem push hpm (adj c) (visited, rest) y).mp hymem
              with h | ⟨h1, _⟩
            · exact (visitStep_fst_mem push (adj c) (visited, rest) y).mpr
                (Or.inl (hw y (List.mem_cons_of_mem c h)))
            · exact (visitStep_fst_mem push (adj c) (visited, rest) y).mpr (Or.inr h1)

/-- Main worklist invariant: with enough fuel the search returns a
duplicate-free superset of the initially visited nodes, contained in any
`U` closed over the adjacency lists, and itself closed under adjacency. -/
theorem searchLoop_spec (adj : String → List String)
    (push : List String → String → List String)
    (hpm : ∀ (w : List String) (n x : String), x ∈ push w n ↔ x ∈ w ∨ x = n)
    (hpl : ∀ (w : List String) (n : String), (push w n).length = w.length + 1)
    (U : Finset String) (hadjU : ∀ a : String, ∀ x ∈ adj a, x ∈ U) :
    ∀ (fuel : ℕ) (visited work : List String),
      visited.Nodup →
      (∀ x ∈ work, x ∈ visited) →
      (∀ v ∈ visited, v ∈ work ∨ ∀ n ∈ adj v, n ∈ visited) →
      (∀ x ∈ visited, x ∈ U) →
      work.length + U.card ≤ fuel + visited.length →
      (searchLoop adj push fuel visited work).Nodup ∧
      (∀ x ∈ visited, x ∈ searchLoop adj push fuel visited work) ∧
      (∀ x ∈ searchLoop adj push fuel visited work, x ∈ U) ∧
      (∀ v ∈ searchLoop adj push fuel visited work,
        ∀ n ∈ adj v, n ∈ searchLoop adj push fuel visited work) := by
  intro fuel
  induction fuel with
  | zero =>
      intro visited work hnd hw hcl hU hfuel
      have hvle : visited.length ≤ U.card := nodup_length_le_card _ _ hnd hU
      have hwnil : work = [] := by
        have : work.length = 0 := by omega
        exact List.length_eq_zero.mp this
      subst hwnil
      refine ⟨hnd, fun x hx => hx, hU, ?_⟩
      intro v hv n hn
      rcases hcl v hv with h | h
      · exact absurd h (List.not_mem_nil v)
      · exact h n hn
  | succ f ih =>
      intro visited work hnd hw hcl hU hfuel
      cases work with
      | nil =>
          refine ⟨hnd, fun x hx => hx, hU, ?_⟩
          intro v hv n hn
          rcases hcl v hv with h | h
          · exact absurd h (List.not_mem_nil v)
          · exact h n hn
      | cons c rest =>
          simp only [searchLoop]
          set vw := visitStep push (visited, rest) (adj c) with hvw
          have hf1 : ∀ x, x ∈ vw.1 ↔ x ∈ visited ∨ x ∈ adj c := fun x =>
            visitStep_fst_mem push (adj c) (visited, rest) x
          have hf2 : ∀ x, x ∈ vw.2 ↔ x ∈ rest ∨ (x ∈ adj c ∧ x ∉ visited) := fun x =>
            visitStep_snd_mem push hpm (adj c) (visited, rest) x
          have hnd' : vw.1.Nodup := visitStep_fst_nodup push (adj c) (visited, rest) hnd
          have hw' : ∀ x ∈ vw.2, x ∈ vw.1 := by
            intro x hx
            rcases (hf2 x).mp hx with h | ⟨h1, _⟩
            · exact (hf1 x).mpr (Or.inl (hw x (List.mem_cons_of_mem c h)))
            · exact (hf1 x).mpr (Or.inr h1)
          have hcl' : ∀ v ∈ vw.1, v ∈ vw.2 ∨ ∀ n ∈ adj v, n ∈ vw.1 := by
            intro v hv
            by_cases hvis : v ∈ visited
            · rcases hcl v hvis with hmem | hclosed
              · rcases List.mem_cons.mp hmem with rfl | hrest
                · exact Or.inr fun n hn => (hf1 n).mpr (Or.inr hn)
                · exact Or.inl ((hf2 v).mpr (Or.inl hrest))
              · exact Or.inr fun n hn => (hf1 n).mpr (Or.inl (hclosed n hn))
            · rcases (hf1 v).mp hv with h | h
              · exact absurd h hvis
              · exact Or.inl ((hf2 v).mpr (Or.inr ⟨h, hvis⟩))
          have hU' : ∀ x ∈ vw.1, x ∈ U := by
            intro x hx
            rcases (hf1 x).mp hx with h | h
            · exact hU x h
            · exact hadjU c x h
          have hlen := visitStep_length push hpl (adj c) (visited, rest)
          have hfuel' : vw.2.length + U.card ≤ f + vw.1.length := by
            simp only [← hvw] at hlen
            simp only [List.length_cons] at hfuel
            omega
          obtain ⟨r1, r2, r3, r4⟩ := ih vw.1 vw.2 hnd' hw' hcl' hU' hfuel'
          exact ⟨r1, fun x hx => r2 x ((hf1 x).mpr (Or.inl hx)), r3, r4⟩

/-- Every node reachable from a visited source ends up in the search
result (completeness, via closedness of the result). -/
theorem searchLoop_complete (adj : String → List String)
    (push : List String → String → List String)
    (fuel : ℕ) (visited work : List String) (s : String)
    (hs : s ∈ searchLoop adj push fuel visited work)
    (hclosed : ∀ v ∈ searchLoop adj push fuel visited work,
      ∀ n ∈ adj v, n ∈ searchLoop adj push fuel visited work) :
    ∀ x, Relation.ReflTransGen (fun a b => b ∈ adj a) s x →
      x ∈ searchLoop adj push fuel visited work := by
  intro x hx
  induction hx with
  | refl => exact hs
  | tail _ hbc ih => exact hclosed _ ih _ hbc

/-- For a start node of `ids` and adjacency lists contained in `ids`, the
search with fuel `ids.length + 1` visits exactly as many nodes as `ids` has
precisely when every id is reachable from the start. -/
theorem searchLoop_full_iff (adj : String → List String)
    (push : List String → String → List String)
    (hpm : ∀ (w : List String) (n x : String), x ∈ push w n ↔ x ∈ w ∨ x = n)
    (hpl : ∀ (w : List String) (n : String), (push w n).length = w.length + 1)
    (ids : List String) (s : String) (hs : s ∈ ids) (hnd : ids.Nodup)
    (hadj : ∀ a : String, ∀ x ∈ adj a, x ∈ ids) :
    (searchLoop adj push (ids.length + 1) [s] [s]).length = ids.length ↔
      ∀ b ∈ ids, Relation.ReflTransGen (fun a b => b ∈ adj a) s b := by
  have hadjU : ∀ a : String, ∀ x ∈ adj a, x ∈ ids.toFinset := by
    intro a x hx
    exact List.mem_toFinset.mpr (hadj a x hx)
  have hfuel : (1 : ℕ) + ids.toFinset.card ≤ (ids.length + 1) + 1 := by
    have := List.toFinset_card_le ids
    omega
  obtain ⟨hndR, hsubR, hUR, hclR⟩ :=
    searchLoop_spec adj push hpm hpl ids.toFinset hadjU (ids.length + 1) [s] [s]
      (by simp) (by simp) (fun v hv => Or.inl hv)
      (by simpa using List.mem_toFinset.mpr hs) (by simpa using hfuel)
  set R := searchLoop adj push (ids.length + 1) [s] [s] with hR
  have hsR : s ∈ R := hsubR s (List.mem_singleton.mpr rfl)
  have hRids : ∀ x ∈ R, x ∈ ids := fun x hx => List.mem_toFinset.mp (hUR x hx)
  have hsound : ∀ x ∈ R, Relation.ReflTransGen (fun a b => b ∈ adj a) s x := by
    intro x hx
    refine searchLoop_sound adj push hpm s (ids.length + 1) [s] [s] ?_ ?_ x hx
    · intro v hv
      rw [List.mem_singleton] at hv
      subst hv
      exact Relation.ReflTransGen.refl
    · intro y hy
      exact hy
  constructor
  · intro hlen b hb
    have hsubF : R.toFinset ⊆ ids.toFinset := fun x hx =>
      List.mem_toFinset.mpr (hRids x (List.mem_toFinset.mp hx))
    have hcards : ids.toFinset.card ≤ R.toFinset.card := by
      rw [List.toFinset_card_of_nodup hndR, List.toFinset_card_of_nodup hnd, hlen]
    have heq : R.toFinset = ids.toFinset :=
      Finset.eq_of_subset_of_card_le hsubF hcards
    have hbR : b ∈ R := by
      have : b ∈ R.toFinset := heq ▸ List.mem_toFinset.mpr hb
      exact List.mem_toFinset.mp this
    exact hsound b hbR
  · intro hall
    have hidsR : ∀ b ∈ ids, b ∈ R := by
      intro b hb
      exact searchLoop_complete adj push (ids.length + 1) [s] [s] s hsR hclR b
        (hall b hb)
    have heq : R.toFinset = ids.toFinset := by
      apply Finset.Subset.antisymm
      · intro x hx
        exact List.mem_toFinset.mpr (hRids x (List.mem_toFinset.mp hx))
      · intro x hx
        exact List.mem_toFinset.mpr (hidsR x (List.mem_toFinset.mp hx))
    calc R.length = R.toFinset.card := (List.toFinset_card_of_nodup hndR).symm
      _ = ids.toFinset.card := by rw [heq]
      _ = ids.length := List.toFinset_card_of_nodup hnd

/-- Membership after one `adj[a].push(b)`. -/
theorem pushNbr_mem (adj : String → List String) (a b k x : String) :
    x ∈ pushNbr adj a b k ↔ x ∈ adj k ∨ (k = a ∧ x = b) := by
  unfold pushNbr
  by_cases h : k = a
  · subst h
    simp
  · simp [h]

/-- Membership after recording one undirected edge. -/
theorem addEdge_mem (adj : String → List String) (u v k x : String) :
    x ∈ addEdge adj u v k ↔ x ∈ adj k ∨ (k = u ∧ x = v) ∨ (k = v ∧ x = u) := by
  unfold addEdge
  rw [pushNbr_mem, pushNbr_mem]
  tauto

/-- Membership in the adjacency lists built by the pair fold of
`checkConnectivity`. -/
theorem mem_foldl_stepAdj (pos : String → Vec3) (t : ℚ) :
    ∀ (P : List (String × String)) (adj0 : String → List String) (a x : String),
      x ∈ (P.foldl (stepAdj pos t) adj0) a ↔
        x ∈ adj0 a ∨ ∃ p ∈ P, nearB (pos p.1) (pos p.2) t = true ∧
          ((a = p.1 ∧ x = p.2) ∨ (a = p.2 ∧ x = p.1)) := by
  intro P
  induction P with
  | nil => intro adj0 a x; simp
  | cons q P ih =>
      intro adj0 a x
      simp only [List.foldl_cons]
      rw [ih]
      unfold stepAdj
      by_cases hn : nearB (pos q.1) (pos q.2) t = true
      · rw [if_pos hn, addEdge_mem]
        simp only [List.mem_cons]
        constructor
        · rintro ((h | ⟨h1, h2⟩ | ⟨h1, h2⟩) | ⟨p, hp, h3, h4⟩)
          · exact Or.inl h
          · exact Or.inr ⟨q, Or.inl rfl, hn, Or.inl ⟨h1, h2⟩⟩
          · exact Or.inr ⟨q, Or.inl rfl, hn, Or.inr ⟨h1, h2⟩⟩
          · exact Or.inr ⟨p, Or.inr hp, h3, h4⟩
        · rintro (h | ⟨p, hp | hp, h3, h4⟩)
          · exact Or.inl (Or.inl h)
          · subst hp
            rcases h4 with ⟨h1, h2⟩ | ⟨h1, h2⟩
            · exact Or.inl (Or.inr (Or.inl ⟨h1, h2⟩))
            · exact Or.inl (Or.inr (Or.inr ⟨h1, h2⟩))
          · exact Or.inr ⟨p, hp, h3, h4⟩
      · rw [if_neg hn]
        simp only [List.mem_cons]
        constructor
        · rintro (h | ⟨p, hp, h3, h4⟩)
          · exact Or.inl h
          · exact Or.inr ⟨p, Or.inr hp, h3, h4⟩
        · rintro (h | ⟨p, hp | hp, h3, h4⟩)
          · exact Or.inl h
          · subst hp
            exact absurd h3 hn
          · exact Or.inr ⟨p, hp, h3, h4⟩

/-- Both components of a pair visited by the double loop are listed ids. -/
theorem pairs_mem_of : ∀ (ids : List String) (a b : String),
    (a, b) ∈ pairs ids → a ∈ ids ∧ b ∈ ids := by
  intro ids
  induction ids with
  | nil => intro a b h; simp [pairs] at h
  | cons x xs ih =>
      intro a b h
      unfold pairs at h
      rcases List.mem_append.mp h with h1 | h1
      · rcases List.mem_map.mp h1 with ⟨y, hy, heq⟩
        obtain ⟨rfl, rfl⟩ := Prod.mk.injEq .. ▸ (Prod.mk.inj heq.symm)
        exact ⟨List.mem_cons_self _ _, List.mem_cons_of_mem _ hy⟩
      · obtain ⟨ha, hb⟩ := ih a b h1
        exact ⟨List.mem_cons_of_mem _ ha, List.mem_cons_of_mem _ hb⟩

/-- On duplicate-free ids the double loop only visits pairs of distinct
ids. -/
theorem pairs_ne : ∀ (ids : List String), ids.Nodup →
    ∀ (a b : String), (a, b) ∈ pairs ids → a ≠ b := by
  intro ids
  induction ids with
  | nil => intro _ a b h; simp [pairs] at h
  | cons x xs ih =>
      intro hnd a b h
      unfold pairs at h
      rcases List.mem_append.mp h with h1 | h1
      · rcases List.mem_map.mp h1 with ⟨y, hy, heq⟩
        obtain ⟨rfl, rfl⟩ := Prod.mk.injEq .. ▸ (Prod.mk.inj heq.symm)
        intro hab
        subst hab
        exact (List.nodup_cons.mp hnd).1 hy
      · exact ih (List.nodup_cons.mp hnd).2 a b h1

/-- Any two distinct listed ids occur as a pair in one of the two orders. -/
theorem pairs_cover : ∀ (ids : List String) (a b : String),
    a ∈ ids → b ∈ ids → a ≠ b → (a, b) ∈ pairs ids ∨ (b, a) ∈ pairs ids := by
  intro ids
  induction ids with
  | nil => intro a b ha _ _; simp at ha
  | cons x xs ih =>
      intro a b ha hb hab
      unfold pairs
      rcases List.mem_cons.mp ha with rfl | ha2
      · rcases List.mem_cons.mp hb with rfl | hb2
        · exact absurd rfl hab
        · exact Or.inl (List.mem_append.mpr
            (Or.inl (List.mem_map.mpr ⟨b, hb2, rfl⟩)))
      · rcases List.mem_cons.mp hb with rfl | hb2
        · exact Or.inr (List.mem_append.mpr
            (Or.inl (List.mem_map.mpr ⟨a, ha2, rfl⟩)))
        · rcases ih a b ha2 hb2 hab with h | h
          · exact Or.inl (List.mem_append.mpr (Or.inr h))
          · exact Or.inr (List.mem_append.mpr (Or.inr h))

/-- The distance test is symmetric. -/
theorem nearB_comm (a b : Vec3) (t : ℚ) : nearB a b t = nearB b a t := by
  unfold nearB
  rw [distSq_comm]

/-- On duplicate-free ids, the built adjacency relation is exactly the
spec's proximity-edge relation (via `nearB_iff_dist_lt`, membership of both
endpoints, distinctness, and distance below the threshold). -/
theorem mem_buildAdj_iff (pos : String → Vec3) (t : ℚ) (ids : List String)
    (hnd : ids.Nodup) (a x : String) :
    x ∈ buildAdj pos t ids a ↔ proxEdge pos t ids a x := by
  unfold buildAdj proxEdge
  rw [mem_foldl_stepAdj]
  constructor
  · rintro (h | ⟨p, hp, hnear, hor⟩)
    · simp at h
    · rcases hor with ⟨rfl, rfl⟩ | ⟨rfl, rfl⟩
      · obtain ⟨h1, h2⟩ := pairs_mem_of ids p.1 p.2 hp
        exact ⟨h1, h2, pairs_ne ids hnd p.1 p.2 hp,
          (nearB_iff_dist_lt _ _ t).mp hnear⟩
      · obtain ⟨h1, h2⟩ := pairs_mem_of ids p.1 p.2 hp
        refine ⟨h2, h1, (pairs_ne ids hnd p.1 p.2 hp).symm, ?_⟩
        rw [← nearB_iff_dist_lt, nearB_comm]
        exact hnear
  · rintro ⟨ha, hx, hax, hdist⟩
    right
    have hnear : nearB (pos a) (pos x) t = true :=
      (nearB_iff_dist_lt _ _ t).mpr hdist
    rcases pairs_cover ids a x ha hx hax with h | h
    · exact ⟨(a, x), h, hnear, Or.inl ⟨rfl, rfl⟩⟩
    · refine ⟨(x, a), h, ?_, Or.inr ⟨rfl, rfl⟩⟩
      rw [nearB_comm]
      exact hnear

/-- Reachability over the built adjacency coincides with reachability in
the spec's proximity graph. -/
theorem rtg_buildAdj_iff (pos : String → Vec3) (t : ℚ) (ids : List String)
    (hnd : ids.Nodup) (s b : String) :
    Relation.ReflTransGen (fun a x => x ∈ buildAdj pos t ids a) s b ↔
      Relation.ReflTransGen (proxEdge pos t ids) s b := by
  constructor
  · exact Relation.ReflTransGen.mono fun a x h =>
      (mem_buildAdj_iff pos t ids hnd a x).mp h
  · exact Relation.ReflTransGen.mono fun a x h =>
      (mem_buildAdj_iff pos t ids hnd a x).mpr h

/-- With a total position map, the adjacency component of
`getConnectivityData`'s fold coincides with `checkConnectivity`'s. -/
theorem buildConn_fst_eq (pos : String → Vec3) (t : ℚ) :
    ∀ (P : List (String × String)) (adj0 : String → List String)
      (conns : List (String × String)),
      (P.foldl (stepConn (fun i => some (pos i)) t) (adj0, conns)).1
        = P.foldl (stepAdj pos t) adj0 := by
  intro P
  induction P with
  | nil => intro adj0 conns; rfl
  | cons q P ih =>
      intro adj0 conns
      simp only [List.foldl_cons]
      unfold stepConn stepAdj
      by_cases hn : nearB (pos q.1) (pos q.2) t = true
      · simp only [hn, if_true]
        exact ih _ _
      · simp only [hn, if_false]
        exact ih _ _

/-- On at least two ids, `checkConnectivity` is the count comparison after
the DFS. -/
theorem checkConnectivity_of_len (pos : String → Vec3) (ids : List String)
    (t : ℚ) (h : 2 ≤ ids.length) :
    checkConnectivity pos ids t
      = decide ((searchLoop (buildAdj pos t ids) stackPush (ids.length + 1)
          [ids.headI] [ids.headI]).length = ids.length) := by
  unfold checkConnectivity
  rw [if_neg (by omega)]

/-- On at least two ids, `getConnectivityData`'s flag is the count
comparison after the BFS. -/
theorem getConnectivityData_flag_of_len (pos : String → Option Vec3)
    (ids : List String) (t : ℚ) (h : 2 ≤ ids.length) :
    (getConnectivityData pos ids t).isFullyConnected
      = decide ((searchLoop (buildConn pos t ids).1 queuePush (ids.length + 1)
          [ids.headI] [ids.headI]).length = ids.length) := by
  unfold getConnectivityData
  rw [if_neg (by omega), if_neg (by omega)]

/-- C1: for at least two distinct ids, all carrying positions, and any
threshold, both `checkConnectivity` (src/utils.ts) and `getConnectivityData`
(src/unnamed/part_001) report full connectivity exactly when the undirected
proximity graph on the ids — edges joining the unordered pairs at Euclidean
distance below the threshold — is connected, i.e. when every id is
reachable by traversal from the start id `ids[0]`. -/
theorem connectivity_check_correct (pos : String → Vec3) (ids : List String)
    (t : ℚ) (h2 : 2 ≤ ids.length) (hnd : ids.Nodup) :
    (checkConnectivity pos ids t = true ↔ graphConnected pos t ids) ∧
    ((getConnectivityData (fun i => some (pos i)) ids t).isFullyConnected = true
      ↔ graphConnected pos t ids) := by
  cases ids with
  | nil => simp at h2
  | cons s rest =>
      have hs : s ∈ s :: rest := List.mem_cons_self _ _
      have hadj : ∀ a : String, ∀ x ∈ buildAdj pos t (s :: rest) a,
          x ∈ s :: rest := by
        intro a x hx
        exact ((mem_buildAdj_iff pos t _ hnd a x).mp hx).2.1
      have hpm_stack : ∀ (w : List String) (n x : String),
          x ∈ stackPush w n ↔ x ∈ w ∨ x = n := by
        intro w n x
        unfold stackPush
        rw [List.mem_cons]
        tauto
      have hpl_stack : ∀ (w : List String) (n : String),
          (stackPush w n).length = w.length + 1 := by
        intro w n
        simp [stackPush]
      have hpm_queue : ∀ (w : List String) (n x : String),
          x ∈ queuePush w n ↔ x ∈ w ∨ x = n := by
        intro w n x
        unfold queuePush
        simp
      have hpl_queue : ∀ (w : List String) (n : String),
          (queuePush w n).length = w.length + 1 := by
        intro w n
        simp [queuePush]
      have hgc : (∀ b ∈ s :: rest,
          Relation.ReflTransGen
            (fun a x => x ∈ buildAdj pos t (s :: rest) a) s b) ↔
          graphConnected pos t (s :: rest) := by
        unfold graphConnected
        constructor
        · intro h b hb
          exact (rtg_buildAdj_iff pos t (s :: rest) hnd s b).mp (h b hb)
        · intro h b hb
          exact (rtg_buildAdj_iff pos t (s :: rest) hnd s b).mpr (h b hb)
      have hhead : (s :: rest).headI = s := rfl
      constructor
      · rw [checkConnectivity_of_len pos (s :: rest) t h2, decide_eq_true_eq,
          hhead]
        exact (searchLoop_full_iff (buildAdj pos t (s :: rest)) stackPush
          hpm_stack hpl_stack (s :: rest) s hs hnd hadj).trans hgc
      · rw [getConnectivityData_flag_of_len _ (s :: rest) t h2,
          decide_eq_true_eq, hhead]
        have hconn : (buildConn (fun i => some (pos i)) t (s :: rest)).1
            = buildAdj pos t (s :: rest) :=
          buildConn_fst_eq pos t (pairs (s :: rest)) _ []
        rw [hconn]
        exact (searchLoop_full_iff (buildAdj pos t (s :: rest)) queuePush
          hpm_queue hpl_queue (s :: rest) s hs hnd hadj).trans hgc

/-- Witness for `connectivity_check_correct`: the spec's three collinear
stones at x = 0, 1, 2 with threshold 1.4. -/
theorem connectivity_check_correct_witness :
    (checkConnectivity
        (fun i => if i = "a" then ⟨0, 0, 0⟩ else if i = "b" then ⟨1, 0, 0⟩ else ⟨2, 0, 0⟩)
        ["a", "b", "c"] (7/5) = true ↔
      graphConnected
        (fun i => if i = "a" then ⟨0, 0, 0⟩ else if i = "b" then ⟨1, 0, 0⟩ else ⟨2, 0, 0⟩)
        (7/5) ["a", "b", "c"]) ∧
    ((getConnectivityData
        (fun i => some ((fun j => if j = "a" then (⟨0, 0, 0⟩ : Vec3)
          else if j = "b" then ⟨1, 0, 0⟩ else ⟨2, 0, 0⟩) i))
        ["a", "b", "c"] (7/5)).isFullyConnected = true ↔
      graphConnected
        (fun i => if i = "a" then ⟨0, 0, 0⟩ else if i = "b" then ⟨1, 0, 0⟩ else ⟨2, 0, 0⟩)
        (7/5) ["a", "b", "c"]) :=
  connectivity_check_correct
    (fun i => if i = "a" then ⟨0, 0, 0⟩ else if i = "b" then ⟨1, 0, 0⟩ else ⟨2, 0, 0⟩)
    ["a", "b", "c"] (7/5) (by simp) (by simp)
